import Mathlib

/-!
Verification model of `src/cswinrt/concurrent_containers.h`.

The header defines two accumulator containers used in fork-join parallel
patterns:

* `concurrent_unordered_map<K, V>` wrapping a `std::unordered_map` guarded by
  a `std::mutex`, with operations `insert_or_assign`, `empty`, `size`, and
  `consume` (which moves the data out and resets the member to empty);
* `concurrent_unordered_set<T>` wrapping a `std::unordered_set`, with
  operations `insert`, `empty`, `size`, and `consume`.

We model the logical content of the wrapped std containers as lists:

* a `std::unordered_map` is a list of key-value pairs whose keys are pairwise
  distinct; `insert_or_assign` overwrites the value in place when the key is
  present and adds a fresh entry otherwise;
* a `std::unordered_set` is a list of pairwise distinct elements; `insert` is
  a no-op when the element is already present and adds it otherwise.

`consume` returns the current content and leaves the member container empty
(the header's comment: "Atomically move all data out and reset"; moving from
a standard container leaves it empty in every mainstream implementation, and
resetting is the documented intent of the code).

Three further models capture aspects the plain functional model cannot:

* a small heap model (`map_heap_state`, `set_heap_state`) giving each
  container buffer an address, so that the transfer of ownership performed by
  `return std::move(m_data)` and the absence of aliasing between the returned
  container and the accumulator become provable statements;
* an interleaving model (`ThreadedAcc`, `TStep`) of several threads each
  performing one lock-guarded operation, over which mutual exclusion of the
  critical sections is proved.
-/

namespace cswinrt

variable {K V T : Type}

/-- Keys of an association list modelling the `std::unordered_map` content. -/
def mapKeys (d : List (K × V)) : List K :=
  d.map Prod.fst

/-- `std::unordered_map::insert_or_assign` on the logical content: if the key
is present, the stored value for that key is overwritten in place; otherwise
the pair is added as a new entry. -/
def ioaData [DecidableEq K] (d : List (K × V)) (k : K) (v : V) : List (K × V) :=
  if k ∈ mapKeys d then
    d.map (fun p => if p.1 = k then (k, v) else p)
  else
    d ++ [(k, v)]

/-- `std::unordered_map::find` projected to the mapped value: the value stored
for key `k`, if any. -/
def lookupData [DecidableEq K] (d : List (K × V)) (k : K) : Option V :=
  match d with
  | [] => none
  | p :: rest => if p.1 = k then some p.2 else lookupData rest k

/-- `std::unordered_set::insert` on the logical content: a no-op when an equal
element is already present, otherwise the element is added. -/
def setInsertData [DecidableEq T] (d : List T) (t : T) : List T :=
  if t ∈ d then d else d ++ [t]

/-- The accumulator class `cswinrt::concurrent_unordered_map<K, V>`: the mutex
is a synchronisation device with no logical content, so the model state is the
content of the member `m_data`. -/
structure concurrent_unordered_map (K V : Type) where
  m_data : List (K × V)
deriving DecidableEq

/-- The accumulator class `cswinrt::concurrent_unordered_set<T>`. -/
structure concurrent_unordered_set (T : Type) where
  m_data : List T
deriving DecidableEq

/-- The default constructor `concurrent_unordered_map() = default`. -/
def concurrent_unordered_map.init (K V : Type) : concurrent_unordered_map K V :=
  ⟨[]⟩

/-- The default constructor `concurrent_unordered_set() = default`. -/
def concurrent_unordered_set.init (T : Type) : concurrent_unordered_set T :=
  ⟨[]⟩

/-- Method `concurrent_unordered_map::insert_or_assign(key, value)`: locks the
mutex and performs `m_data.insert_or_assign(key, value)`. -/
def concurrent_unordered_map.insert_or_assign [DecidableEq K]
    (m : concurrent_unordered_map K V) (k : K) (v : V) :
    concurrent_unordered_map K V :=
  ⟨ioaData m.m_data k v⟩

/-- Method `concurrent_unordered_map::empty()`: locks the mutex and returns
`m_data.empty()`. -/
def concurrent_unordered_map.empty (m : concurrent_unordered_map K V) : Bool :=
  m.m_data.isEmpty

/-- Method `concurrent_unordered_map::size()`: locks the mutex and returns
`m_data.size()`. -/
def concurrent_unordered_map.size (m : concurrent_unordered_map K V) : Nat :=
  m.m_data.length

/-- Method `concurrent_unordered_map::consume()`: locks the mutex and returns
`std::move(m_data)`, handing the accumulated content to the caller and leaving
the member empty. -/
def concurrent_unordered_map.consume (m : concurrent_unordered_map K V) :
    List (K × V) × concurrent_unordered_map K V :=
  (m.m_data, ⟨[]⟩)

/-- Method `concurrent_unordered_set::insert(value)`: locks the mutex and
performs `m_data.insert(value)` (both overloads have the same effect on the
logical content). -/
def concurrent_unordered_set.insert [DecidableEq T]
    (s : concurrent_unordered_set T) (t : T) : concurrent_unordered_set T :=
  ⟨setInsertData s.m_data t⟩

/-- Method `concurrent_unordered_set::empty()`. -/
def concurrent_unordered_set.empty (s : concurrent_unordered_set T) : Bool :=
  s.m_data.isEmpty

/-- Method `concurrent_unordered_set::size()`. -/
def concurrent_unordered_set.size (s : concurrent_unordered_set T) : Nat :=
  s.m_data.length

/-- Method `concurrent_unordered_set::consume()`. -/
def concurrent_unordered_set.consume (s : concurrent_unordered_set T) :
    List T × concurrent_unordered_set T :=
  (s.m_data, ⟨[]⟩)

/-- A whole accumulation round of the map: a sequence of `insert_or_assign`
calls applied in order, starting from the given accumulator state. -/
def runMapFrom [DecidableEq K] (m : concurrent_unordered_map K V)
    (ops : List (K × V)) : concurrent_unordered_map K V :=
  match ops with
  | [] => m
  | p :: rest => runMapFrom (m.insert_or_assign p.1 p.2) rest

/-- An accumulation round of the map starting from a fresh accumulator. -/
def runMap [DecidableEq K] (ops : List (K × V)) : concurrent_unordered_map K V :=
  runMapFrom (concurrent_unordered_map.init K V) ops

/-- A whole accumulation round of the set: a sequence of `insert` calls
applied in order, starting from the given accumulator state. -/
def runSetFrom [DecidableEq T] (s : concurrent_unordered_set T)
    (ops : List T) : concurrent_unordered_set T :=
  match ops with
  | [] => s
  | t :: rest => runSetFrom (s.insert t) rest

/-- An accumulation round of the set starting from a fresh accumulator. -/
def runSet [DecidableEq T] (ops : List T) : concurrent_unordered_set T :=
  runSetFrom (concurrent_unordered_set.init T) ops

/-- The value the whole sequence of `insert_or_assign` calls leaves associated
with key `k`: the value of the last call whose key is `k`, if any. -/
def lastWrite [DecidableEq K] (ops : List (K × V)) (k : K) : Option V :=
  match ops with
  | [] => none
  | p :: rest =>
    match lastWrite rest k with
    | some v => some v
    | none => if p.1 = k then some p.2 else none

/-- In the assign branch of `insert_or_assign` the lookup of the assigned key
finds the new value. -/
theorem lookupData_map_assign [DecidableEq K] (d : List (K × V)) (k : K) (v : V)
    (h : k ∈ mapKeys d) :
    lookupData (d.map (fun p => if p.1 = k then (k, v) else p)) k = some v := by
  induction d with
  | nil => simp [mapKeys] at h
  | cons p rest ih =>
    by_cases hp : p.1 = k
    · simp [lookupData, hp]
    · have hk : k ∈ mapKeys rest := by
        simp only [mapKeys, List.map_cons, List.mem_cons] at h
        rcases h with h1 | h2
        · exact absurd h1.symm hp
        · exact h2
      simp [lookupData, hp, ih hk]

/-- In the assign branch of `insert_or_assign` lookups of other keys are
unchanged. -/
theorem lookupData_map_assign_other [DecidableEq K] (d : List (K × V))
    (k k' : K) (v : V) (h : k' ≠ k) :
    lookupData (d.map (fun p => if p.1 = k then (k, v) else p)) k' =
      lookupData d k' := by
  induction d with
  | nil => rfl
  | cons p rest ih =>
    by_cases hp : p.1 = k
    · have h1 : ¬(k = k') := fun hkk => h hkk.symm
      have h2 : ¬(p.1 = k') := by rw [hp]; exact h1
      simp [lookupData, hp, h1, h2, ih]
    · by_cases hp' : p.1 = k'
      · simp only [List.map_cons, lookupData, if_neg hp, if_pos hp']
      · simp only [List.map_cons, lookupData, if_neg hp, if_neg hp', ih]

/-- In the insert branch of `insert_or_assign` the lookup of the inserted key
finds the new value. -/
theorem lookupData_append_self [DecidableEq K] (d : List (K × V)) (k : K) (v : V)
    (h : k ∉ mapKeys d) :
    lookupData (d ++ [(k, v)]) k = some v := by
  induction d with
  | nil => simp [lookupData]
  | cons p rest ih =>
    simp only [mapKeys, List.map_cons, List.mem_cons, not_or] at h
    have hp : ¬(p.1 = k) := fun hh => h.1 hh.symm
    simp only [List.cons_append, lookupData, if_neg hp]
    exact ih h.2

/-- In the insert branch of `insert_or_assign` lookups of other keys are
unchanged. -/
theorem lookupData_append_other [DecidableEq K] (d : List (K × V))
    (k k' : K) (v : V) (h : k' ≠ k) :
    lookupData (d ++ [(k, v)]) k' = lookupData d k' := by
  induction d with
  | nil =>
    have h1 : ¬(k = k') := fun hkk => h hkk.symm
    simp [lookupData, h1]
  | cons p rest ih =>
    by_cases hp : p.1 = k'
    · simp [lookupData, hp]
    · simp [lookupData, hp, ih]

/-- `insert_or_assign` stores the given value under the given key. -/
theorem lookupData_ioa_self [DecidableEq K] (d : List (K × V)) (k : K) (v : V) :
    lookupData (ioaData d k v) k = some v := by
  unfold ioaData
  by_cases h : k ∈ mapKeys d
  · rw [if_pos h]; exact lookupData_map_assign d k v h
  · rw [if_neg h]; exact lookupData_append_self d k v h

/-- `insert_or_assign` does not disturb the value stored under any other
key. -/
theorem lookupData_ioa_other [DecidableEq K] (d : List (K × V))
    (k k' : K) (v : V) (h : k' ≠ k) :
    lookupData (ioaData d k v) k' = lookupData d k' := by
  unfold ioaData
  by_cases hm : k ∈ mapKeys d
  · rw [if_pos hm]; exact lookupData_map_assign_other d k k' v h
  · rw [if_neg hm]; exact lookupData_append_other d k k' v h

/-- The assign branch of `insert_or_assign` leaves the key sequence
unchanged. -/
theorem mapKeys_map_assign [DecidableEq K] (d : List (K × V)) (k : K) (v : V) :
    mapKeys (d.map (fun p => if p.1 = k then (k, v) else p)) = mapKeys d := by
  induction d with
  | nil => rfl
  | cons p rest ih =>
    by_cases hp : p.1 = k
    · simp [mapKeys, hp, mapKeys] at ih ⊢
      exact ih
    · simp [mapKeys, hp] at ih ⊢
      exact ih

/-- The key sequence after an `insert_or_assign`. -/
theorem mapKeys_ioa [DecidableEq K] (d : List (K × V)) (k : K) (v : V) :
    mapKeys (ioaData d k v) =
      if k ∈ mapKeys d then mapKeys d else mapKeys d ++ [k] := by
  unfold ioaData
  by_cases h : k ∈ mapKeys d
  · rw [if_pos h, if_pos h]; exact mapKeys_map_assign d k v
  · rw [if_neg h, if_neg h]; simp [mapKeys]

/-- `insert_or_assign` preserves distinctness of keys. -/
theorem nodup_mapKeys_ioa [DecidableEq K] (d : List (K × V)) (k : K) (v : V)
    (h : (mapKeys d).Nodup) : (mapKeys (ioaData d k v)).Nodup := by
  rw [mapKeys_ioa]
  by_cases hk : k ∈ mapKeys d
  · simpa [hk] using h
  · simp [hk, List.nodup_append, h, List.disjoint_singleton]

/-- Size change of a single `insert_or_assign`. -/
theorem ioaData_length [DecidableEq K] (d : List (K × V)) (k : K) (v : V) :
    (ioaData d k v).length =
      if k ∈ mapKeys d then d.length else d.length + 1 := by
  unfold ioaData
  by_cases h : k ∈ mapKeys d <;> simp [h]

/-- Membership after a set `insert`. -/
theorem mem_setInsertData [DecidableEq T] (d : List T) (t x : T) :
    x ∈ setInsertData d t ↔ x ∈ d ∨ x = t := by
  unfold setInsertData
  by_cases h : t ∈ d
  · rw [if_pos h]
    constructor
    · exact Or.inl
    · rintro (hx | rfl)
      · exact hx
      · exact h
  · rw [if_neg h]
    simp

/-- Set `insert` preserves distinctness of the elements. -/
theorem nodup_setInsertData [DecidableEq T] (d : List T) (t : T)
    (h : d.Nodup) : (setInsertData d t).Nodup := by
  unfold setInsertData
  by_cases ht : t ∈ d
  · simpa [ht] using h
  · simp [ht, List.nodup_append, h, List.disjoint_singleton]

/-- Size change of a single set `insert`. -/
theorem setInsertData_length [DecidableEq T] (d : List T) (t : T) :
    (setInsertData d t).length =
      if t ∈ d then d.length else d.length + 1 := by
  unfold setInsertData
  by_cases h : t ∈ d <;> simp [h]

/-- Lookup after a whole accumulation round: the last write to the key wins,
and keys never written keep the value they had in the starting state. -/
theorem lookupData_runMapFrom [DecidableEq K] (ops : List (K × V))
    (m : concurrent_unordered_map K V) (k : K) :
    lookupData (runMapFrom m ops).m_data k =
      match lastWrite ops k with
      | some v => some v
      | none => lookupData m.m_data k := by
  induction ops generalizing m with
  | nil => simp [runMapFrom, lastWrite]
  | cons p rest ih =>
    rw [runMapFrom, ih]
    cases hw : lastWrite rest k with
    | some v => simp [lastWrite, hw]
    | none =>
      simp only [lastWrite, hw]
      by_cases hp : p.1 = k
      · subst hp
        simp [concurrent_unordered_map.insert_or_assign, lookupData_ioa_self]
      · have hk : k ≠ p.1 := fun hh => hp hh.symm
        simp [concurrent_unordered_map.insert_or_assign, hp,
          lookupData_ioa_other _ _ _ _ hk]

/-- A whole accumulation round preserves distinctness of keys. -/
theorem nodup_runMapFrom [DecidableEq K] (ops : List (K × V))
    (m : concurrent_unordered_map K V) (h : (mapKeys m.m_data).Nodup) :
    (mapKeys (runMapFrom m ops).m_data).Nodup := by
  induction ops generalizing m with
  | nil => exact h
  | cons p rest ih => exact ih _ (nodup_mapKeys_ioa _ _ _ h)

/-- Membership after a whole set accumulation round: exactly the starting
elements and the inserted ones. -/
theorem mem_runSetFrom [DecidableEq T] (ops : List T)
    (s : concurrent_unordered_set T) (x : T) :
    x ∈ (runSetFrom s ops).m_data ↔ x ∈ s.m_data ∨ x ∈ ops := by
  induction ops generalizing s with
  | nil => simp [runSetFrom]
  | cons t rest ih =>
    rw [runSetFrom, ih]
    simp only [concurrent_unordered_set.insert, mem_setInsertData,
      List.mem_cons]
    tauto

/-- A whole set accumulation round preserves distinctness. -/
theorem nodup_runSetFrom [DecidableEq T] (ops : List T)
    (s : concurrent_unordered_set T) (h : s.m_data.Nodup) :
    (runSetFrom s ops).m_data.Nodup := by
  induction ops generalizing s with
  | nil => exact h
  | cons t rest ih => exact ih _ (nodup_setInsertData _ _ h)

/-! ### Heap model of buffer ownership

`consume()` is `return std::move(m_data)`: the buffer owned by the member
`m_data` is transferred to a brand-new container object owned by the caller,
and the member is left empty.  To express that the returned container shares
no state with the accumulator we give every container object an address in a
heap of buffers: the member `m_data` keeps a fixed address, and each call to
`consume` hands the current buffer content to a fresh, never-used address. -/

/-- A heap of container buffers.  `m_data_addr` is the address of the
accumulator member `m_data`; addresses `≥ next_addr` have never been handed
out. -/
structure heap_state (α : Type) where
  heap : Nat → α
  m_data_addr : Nat
  next_addr : Nat

/-- Well-formedness: the member's address was handed out earlier, so it is
distinct from every address `consume` will return. -/
def heap_state.wf (s : heap_state α) : Prop :=
  s.m_data_addr < s.next_addr

/-- `consume()` in the heap model: the content of `m_data` moves to a fresh
address (the returned container), and `m_data` is left empty. -/
def hConsume (emptyVal : α) (s : heap_state α) : Nat × heap_state α :=
  (s.next_addr,
   { heap := fun a =>
       if a = s.next_addr then s.heap s.m_data_addr
       else if a = s.m_data_addr then emptyVal
       else s.heap a,
     m_data_addr := s.m_data_addr,
     next_addr := s.next_addr + 1 })

/-- A mutating operation in the heap model: only the buffer of `m_data` is
touched. -/
def hMutate (f : α → α) (s : heap_state α) : heap_state α :=
  { s with
    heap := fun a =>
      if a = s.m_data_addr then f (s.heap s.m_data_addr) else s.heap a }

/-- The four operations of `concurrent_unordered_map`. -/
inductive MapOp (K V : Type) where
  | insert_or_assign (k : K) (v : V)
  | emptyQuery
  | sizeQuery
  | consume

/-- The four operations of `concurrent_unordered_set`. -/
inductive SetOp (T : Type) where
  | insert (t : T)
  | emptyQuery
  | sizeQuery
  | consume

/-- Effect of a map operation on the content of `m_data` (`empty()` and
`size()` are const methods and read only; `consume()` leaves the member
empty). -/
def applyMapOp [DecidableEq K] (op : MapOp K V) (d : List (K × V)) :
    List (K × V) :=
  match op with
  | .insert_or_assign k v => ioaData d k v
  | .emptyQuery => d
  | .sizeQuery => d
  | .consume => []

/-- Effect of a set operation on the content of `m_data`. -/
def applySetOp [DecidableEq T] (op : SetOp T) (d : List T) : List T :=
  match op with
  | .insert t => setInsertData d t
  | .emptyQuery => d
  | .sizeQuery => d
  | .consume => []

/-- One map operation on the heap model. -/
def hStepMap [DecidableEq K] (s : heap_state (List (K × V))) (op : MapOp K V) :
    heap_state (List (K × V)) :=
  match op with
  | .insert_or_assign k v => hMutate (fun d => ioaData d k v) s
  | .emptyQuery => s
  | .sizeQuery => s
  | .consume => (hConsume [] s).2

/-- One set operation on the heap model. -/
def hStepSet [DecidableEq T] (s : heap_state (List T)) (op : SetOp T) :
    heap_state (List T) :=
  match op with
  | .insert t => hMutate (fun d => setInsertData d t) s
  | .emptyQuery => s
  | .sizeQuery => s
  | .consume => (hConsume [] s).2

/-- A sequence of map operations on the heap model. -/
def hRunMap [DecidableEq K] (s : heap_state (List (K × V)))
    (ops : List (MapOp K V)) : heap_state (List (K × V)) :=
  match ops with
  | [] => s
  | op :: rest => hRunMap (hStepMap s op) rest

/-- A sequence of set operations on the heap model. -/
def hRunSet [DecidableEq T] (s : heap_state (List T)) (ops : List (SetOp T)) :
    heap_state (List T) :=
  match ops with
  | [] => s
  | op :: rest => hRunSet (hStepSet s op) rest

/-- A single map operation never touches an already handed-out address other
than the member's own, never moves the member, and never reuses an old
address. -/
theorem hStepMap_frame [DecidableEq K] (s : heap_state (List (K × V)))
    (op : MapOp K V) (r : Nat) (hr : r ≠ s.m_data_addr) (hlt : r < s.next_addr) :
    (hStepMap s op).heap r = s.heap r ∧
      (hStepMap s op).m_data_addr = s.m_data_addr ∧
      s.next_addr ≤ (hStepMap s op).next_addr := by
  cases op with
  | insert_or_assign k v => simp [hStepMap, hMutate, hr]
  | emptyQuery => simp [hStepMap]
  | sizeQuery => simp [hStepMap]
  | consume => simp [hStepMap, hConsume, hr, Nat.ne_of_lt hlt, Nat.le_succ]

/-- A single set operation never touches an already handed-out address other
than the member's own, never moves the member, and never reuses an old
address. -/
theorem hStepSet_frame [DecidableEq T] (s : heap_state (List T))
    (op : SetOp T) (r : Nat) (hr : r ≠ s.m_data_addr) (hlt : r < s.next_addr) :
    (hStepSet s op).heap r = s.heap r ∧
      (hStepSet s op).m_data_addr = s.m_data_addr ∧
      s.next_addr ≤ (hStepSet s op).next_addr := by
  cases op with
  | insert t => simp [hStepSet, hMutate, hr]
  | emptyQuery => simp [hStepSet]
  | sizeQuery => simp [hStepSet]
  | consume => simp [hStepSet, hConsume, hr, Nat.ne_of_lt hlt, Nat.le_succ]

/-- No sequence of map operations touches an already handed-out address other
than the member's own. -/
theorem hRunMap_frame [DecidableEq K] (ops : List (MapOp K V))
    (s : heap_state (List (K × V))) (r : Nat)
    (hr : r ≠ s.m_data_addr) (hlt : r < s.next_addr) :
    (hRunMap s ops).heap r = s.heap r := by
  induction ops generalizing s with
  | nil => rfl
  | cons op rest ih =>
    obtain ⟨h1, h2, h3⟩ := hStepMap_frame s op r hr hlt
    rw [hRunMap, ih (hStepMap s op) (by rw [h2]; exact hr)
      (lt_of_lt_of_le hlt h3), h1]

/-- No sequence of set operations touches an already handed-out address other
than the member's own. -/
theorem hRunSet_frame [DecidableEq T] (ops : List (SetOp T))
    (s : heap_state (List T)) (r : Nat)
    (hr : r ≠ s.m_data_addr) (hlt : r < s.next_addr) :
    (hRunSet s ops).heap r = s.heap r := by
  induction ops generalizing s with
  | nil => rfl
  | cons op rest ih =>
    obtain ⟨h1, h2, h3⟩ := hStepSet_frame s op r hr hlt
    rw [hRunSet, ih (hStepSet s op) (by rw [h2]; exact hr)
      (lt_of_lt_of_le hlt h3), h1]

/-! ### Interleaving model of the exclusion guard

Every method of both classes has the shape
`std::lock_guard lock(m_mutex); <access m_data>;` — the guard is acquired on
entry and the storage access happens strictly between acquisition and
release.  We model `n` threads each performing one such operation on the same
accumulator: a thread first acquires the mutex (possible only when no thread
holds it), and while holding it performs its storage access and releases. -/

/-- The program counter of one thread running one lock-guarded operation. -/
inductive LockPhase where
  | beforeLock
  | inCritical
  | released
deriving DecidableEq

/-- Shared state of an accumulator being used by `n` threads: the mutex
owner (`none` when the mutex is free), each thread's phase, and the content
of `m_data`. -/
structure ThreadedAcc (n : Nat) (α : Type) where
  owner : Option (Fin n)
  phase : Fin n → LockPhase
  m_data : α

/-- Initial state: mutex free, no thread started, given initial content. -/
def ThreadedAcc.start (n : Nat) (e : α) : ThreadedAcc n α :=
  ⟨none, fun _ => .beforeLock, e⟩

/-- Interleaving semantics of the lock-guarded operations: `lock` is the
`std::lock_guard` constructor (blocks unless the mutex is free), `unlock` is
the storage access followed by the guard's destructor. -/
inductive TStep {n : Nat} {α Op : Type} (apply : Op → α → α)
    (ops : Fin n → Op) : ThreadedAcc n α → ThreadedAcc n α → Prop where
  | lock (s : ThreadedAcc n α) (i : Fin n) :
      s.owner = none → s.phase i = .beforeLock →
      TStep apply ops s
        ⟨some i, Function.update s.phase i .inCritical, s.m_data⟩
  | unlock (s : ThreadedAcc n α) (i : Fin n) :
      s.owner = some i → s.phase i = .inCritical →
      TStep apply ops s
        ⟨none, Function.update s.phase i .released, apply (ops i) s.m_data⟩

/-- States reachable by interleaving the `n` lock-guarded operations. -/
inductive TReach {n : Nat} {α Op : Type} (apply : Op → α → α)
    (ops : Fin n → Op) (e : α) : ThreadedAcc n α → Prop where
  | start : TReach apply ops e (ThreadedAcc.start n e)
  | step (s t : ThreadedAcc n α) :
      TReach apply ops e s → TStep apply ops s t → TReach apply ops e t

/-- Lock invariant: a thread inside its critical section owns the mutex. -/
theorem treach_critical_owner {n : Nat} {α Op : Type} (apply : Op → α → α)
    (ops : Fin n → Op) (e : α) (s : ThreadedAcc n α)
    (h : TReach apply ops e s) :
    ∀ i, s.phase i = .inCritical → s.owner = some i := by
  induction h with
  | start =>
    intro i hi
    simp [ThreadedAcc.start] at hi
  | step s t hs hst ih =>
    intro i hi
    cases hst with
    | lock j hown hph =>
      by_cases hij : i = j
      · subst hij; rfl
      · simp only [Function.update_apply, if_neg hij] at hi
        exact absurd (ih i hi) (by rw [hown]; simp)
    | unlock j hown hph =>
      by_cases hij : i = j
      · subst hij
        simp [Function.update_apply] at hi
      · simp only [Function.update_apply, if_neg hij] at hi
        have hsome := ih i hi
        rw [hown] at hsome
        exact absurd (Option.some.inj hsome) (fun hji => hij hji.symm)

/-- Mutual exclusion of the lock-guarded operations: two threads can never be
inside their critical sections at the same time. -/
theorem treach_mutual_exclusion {n : Nat} {α Op : Type} (apply : Op → α → α)
    (ops : Fin n → Op) (e : α) (s : ThreadedAcc n α)
    (h : TReach apply ops e s) (i j : Fin n)
    (hi : s.phase i = .inCritical) (hj : s.phase j = .inCritical) : i = j := by
  have h1 := treach_critical_owner apply ops e s h i hi
  have h2 := treach_critical_owner apply ops e s h j hj
  rw [h1] at h2
  exact Option.some.inj h2

/-- With distinct keys, an entry is present exactly when the lookup of its key
yields its value. -/
theorem mem_iff_lookupData [DecidableEq K] (d : List (K × V)) (k : K) (v : V)
    (h : (mapKeys d).Nodup) : (k, v) ∈ d ↔ lookupData d k = some v := by
  induction d with
  | nil => simp [lookupData]
  | cons p rest ih =>
    simp only [mapKeys, List.map_cons, List.nodup_cons] at h
    by_cases hp : p.1 = k
    · simp only [lookupData, if_pos hp, List.mem_cons]
      constructor
      · rintro (rfl | hmem)
        · rfl
        · exact absurd (hp ▸ List.mem_map_of_mem Prod.fst hmem) h.1
      · intro hv
        left
        have hv2 : p.2 = v := Option.some.inj hv
        cases p
        simp only at hp hv2
        rw [hp, hv2]
    · simp only [lookupData, if_neg hp, List.mem_cons]
      rw [← ih h.2]
      constructor
      · rintro (rfl | hmem)
        · exact absurd rfl hp
        · exact hmem
      · exact Or.inr

end cswinrt

namespace cswinrt

/-- C1: for every sequence of `insert_or_assign` calls (map) or `insert`
calls (set) performed before a single `consume` call, the container returned
by `consume` contains exactly the union of the inserted entries:
last-writer-wins per key for the map (the lookup of every key is the last
value written to it, an entry is present exactly when it is the last write of
its key, and keys are pairwise distinct), deduplicated for the set (an
element is present exactly when it was inserted, with no duplicates). -/
theorem C1_consume_exact_union (K V T : Type) [DecidableEq K] [DecidableEq T] :
    (∀ (ops : List (K × V)) (k : K),
        lookupData ((runMap ops).consume.1) k = lastWrite ops k) ∧
    (∀ (ops : List (K × V)) (k : K) (v : V),
        (k, v) ∈ (runMap ops).consume.1 ↔ lastWrite ops k = some v) ∧
    (∀ ops : List (K × V), (mapKeys ((runMap ops).consume.1)).Nodup) ∧
    (∀ (ops : List T) (x : T), x ∈ (runSet ops).consume.1 ↔ x ∈ ops) ∧
    (∀ ops : List T, ((runSet ops).consume.1).Nodup) := by
  have hlook : ∀ (ops : List (K × V)) (k : K),
      lookupData ((runMap ops).consume.1) k = lastWrite ops k := by
    intro ops k
    show lookupData (runMap ops).m_data k = lastWrite ops k
    rw [runMap, lookupData_runMapFrom]
    cases lastWrite ops k <;>
      simp [concurrent_unordered_map.init, lookupData]
  have hnodup : ∀ ops : List (K × V),
      (mapKeys ((runMap ops).consume.1)).Nodup := by
    intro ops
    exact nodup_runMapFrom ops _
      (by simp [concurrent_unordered_map.init, mapKeys])
  refine ⟨hlook, ?_, hnodup, ?_, ?_⟩
  · intro ops k v
    rw [mem_iff_lookupData _ _ _ (hnodup ops), hlook ops k]
  · intro ops x
    show x ∈ (runSet ops).m_data ↔ x ∈ ops
    rw [runSet, mem_runSetFrom]
    simp [concurrent_unordered_set.init]
  · intro ops
    exact nodup_runSetFrom ops _ (by simp [concurrent_unordered_set.init])

/-- C2: immediately after `consume()` returns, `empty()` on the accumulator
returns `true` and `size()` returns `0`, whatever the accumulator held
before; the internal storage is exactly the freshly constructed one, ready
for a new accumulation round. -/
theorem C2_after_consume_empty (K V T : Type) :
    (∀ m : concurrent_unordered_map K V,
        m.consume.2.empty = true ∧ m.consume.2.size = 0 ∧
          m.consume.2 = concurrent_unordered_map.init K V) ∧
    (∀ s : concurrent_unordered_set T,
        s.consume.2.empty = true ∧ s.consume.2.size = 0 ∧
          s.consume.2 = concurrent_unordered_set.init T) :=
  ⟨fun _ => ⟨rfl, rfl, rfl⟩, fun _ => ⟨rfl, rfl, rfl⟩⟩

/-- C3: two consecutive accumulation rounds are independent: the container
returned by the second `consume` holds exactly what a fresh accumulator would
hold after the second round's insertions alone, with no carryover from the
first round. -/
theorem C3_rounds_independent (K V T : Type) [DecidableEq K] [DecidableEq T] :
    (∀ ops1 ops2 : List (K × V),
        (runMapFrom (runMap ops1).consume.2 ops2).consume.1 =
          (runMap ops2).consume.1) ∧
    (∀ ops1 ops2 : List T,
        (runSetFrom (runSet ops1).consume.2 ops2).consume.1 =
          (runSet ops2).consume.1) :=
  ⟨fun _ _ => rfl, fun _ _ => rfl⟩

/-- C4: the container returned by `consume` shares no state with the
accumulator: in the heap model of buffer ownership, no sequence of subsequent
operations on the accumulator (insert, insert_or_assign, empty, size, or
later consumes) changes the buffer handed out by `consume`, which keeps
exactly the content accumulated before the call. -/
theorem C4_no_sharing (K V T : Type) [DecidableEq K] [DecidableEq T] :
    (∀ s : heap_state (List (K × V)), s.wf →
        ∀ ops : List (MapOp K V),
          (hRunMap (hConsume [] s).2 ops).heap (hConsume [] s).1 =
            s.heap s.m_data_addr) ∧
    (∀ s : heap_state (List T), s.wf →
        ∀ ops : List (SetOp T),
          (hRunSet (hConsume [] s).2 ops).heap (hConsume [] s).1 =
            s.heap s.m_data_addr) := by
  constructor
  · intro s hwf ops
    have hlt : s.m_data_addr < s.next_addr := hwf
    have h := hRunMap_frame ops ((hConsume ([] : List (K × V)) s).2)
      s.next_addr (Ne.symm (Nat.ne_of_lt hlt)) (Nat.lt_succ_self _)
    show (hRunMap (hConsume [] s).2 ops).heap s.next_addr =
      s.heap s.m_data_addr
    rw [h]
    simp [hConsume]
  · intro s hwf ops
    have hlt : s.m_data_addr < s.next_addr := hwf
    have h := hRunSet_frame ops ((hConsume ([] : List T) s).2)
      s.next_addr (Ne.symm (Nat.ne_of_lt hlt)) (Nat.lt_succ_self _)
    show (hRunSet (hConsume [] s).2 ops).heap s.next_addr =
      s.heap s.m_data_addr
    rw [h]
    simp [hConsume]

/-- Witness for C4 at a concrete well-formed heap state. -/
theorem C4_no_sharing_witness :
    (⟨fun _ => ([] : List (Nat × Nat)), 0, 1⟩ :
        heap_state (List (Nat × Nat))).wf ∧
    (hRunMap
        (hConsume []
          (⟨fun _ => ([] : List (Nat × Nat)), 0, 1⟩ :
            heap_state (List (Nat × Nat)))).2
        ([MapOp.insert_or_assign 3 4, MapOp.consume])).heap
      (hConsume []
        (⟨fun _ => ([] : List (Nat × Nat)), 0, 1⟩ :
          heap_state (List (Nat × Nat)))).1 =
      (⟨fun _ => ([] : List (Nat × Nat)), 0, 1⟩ :
        heap_state (List (Nat × Nat))).heap 0 :=
  ⟨Nat.one_pos,
   (C4_no_sharing Nat Nat Nat).1
     (⟨fun _ => ([] : List (Nat × Nat)), 0, 1⟩ :
       heap_state (List (Nat × Nat))) Nat.one_pos
     [MapOp.insert_or_assign 3 4, MapOp.consume]⟩

/-- C5: `consume()` on a never-inserted accumulator succeeds and returns an
empty container of the correct type. -/
theorem C5_consume_fresh_empty (K V T : Type) :
    (concurrent_unordered_map.init K V).consume.1 = ([] : List (K × V)) ∧
    (concurrent_unordered_set.init T).consume.1 = ([] : List T) :=
  ⟨rfl, rfl⟩

/-- C6: `insert_or_assign` inserts the entry if the key is absent and
overwrites the value if the key is present; in particular two sequential
`insert_or_assign` calls on the same key followed by `consume` yield the
second value for that key, and lookups of other keys are untouched. -/
theorem C6_insert_or_assign_overwrites (K V : Type) [DecidableEq K] :
    (∀ (m : concurrent_unordered_map K V) (k : K) (v1 v2 : V),
        lookupData (((m.insert_or_assign k v1).insert_or_assign k v2).consume.1)
          k = some v2) ∧
    (∀ (m : concurrent_unordered_map K V) (k : K) (v : V),
        lookupData (m.insert_or_assign k v).m_data k = some v) ∧
    (∀ (m : concurrent_unordered_map K V) (k k' : K) (v : V), k' ≠ k →
        lookupData (m.insert_or_assign k v).m_data k' =
          lookupData m.m_data k') ∧
    (∀ (m : concurrent_unordered_map K V) (k : K) (v : V),
        mapKeys (m.insert_or_assign k v).m_data =
          if k ∈ mapKeys m.m_data then mapKeys m.m_data
          else mapKeys m.m_data ++ [k]) := by
  refine ⟨?_, ?_, ?_, ?_⟩
  · intro m k v1 v2
    exact lookupData_ioa_self _ k v2
  · intro m k v
    exact lookupData_ioa_self _ k v
  · intro m k k' v h
    exact lookupData_ioa_other _ k k' v h
  · intro m k v
    exact mapKeys_ioa _ k v

/-- Witness for C6 at concrete keys and values. -/
theorem C6_insert_or_assign_overwrites_witness :
    ((2 : Nat) ≠ 1) ∧
      lookupData
          ((concurrent_unordered_map.init Nat Nat).insert_or_assign 1 5).m_data
          2 =
        lookupData (concurrent_unordered_map.init Nat Nat).m_data 2 :=
  ⟨by decide,
   (C6_insert_or_assign_overwrites Nat Nat).2.2.1
     (concurrent_unordered_map.init Nat Nat) 1 2 5 (by decide)⟩

/-- C7: set `insert` is idempotent with respect to equal values: inserting a
value already present leaves the set unchanged, and after any round the
consumed container holds each inserted value exactly once — in particular
inserting the same value twice yields exactly one occurrence. -/
theorem C7_set_insert_idempotent (T : Type) [DecidableEq T] :
    (∀ (s : concurrent_unordered_set T) (t : T),
        t ∈ s.m_data → s.insert t = s) ∧
    (∀ (ops : List T) (t : T),
        ((runSet ops).consume.1).count t = if t ∈ ops then 1 else 0) ∧
    (∀ (ops : List T) (t : T),
        ((runSet (ops ++ [t, t])).consume.1).count t = 1) := by
  have hmem : ∀ (ops : List T) (x : T),
      x ∈ (runSet ops).consume.1 ↔ x ∈ ops := by
    intro ops x
    show x ∈ (runSet ops).m_data ↔ x ∈ ops
    rw [runSet, mem_runSetFrom]
    simp [concurrent_unordered_set.init]
  have hnd : ∀ ops : List T, ((runSet ops).consume.1).Nodup := fun ops =>
    nodup_runSetFrom ops _ (by simp [concurrent_unordered_set.init])
  have hcount : ∀ (ops : List T) (t : T),
      ((runSet ops).consume.1).count t = if t ∈ ops then 1 else 0 := by
    intro ops t
    by_cases h : t ∈ ops
    · rw [if_pos h]
      exact List.count_eq_one_of_mem (hnd ops) ((hmem ops t).mpr h)
    · rw [if_neg h]
      exact List.count_eq_zero.mpr (fun hx => h ((hmem ops t).mp hx))
  refine ⟨?_, hcount, ?_⟩
  · intro s t h
    simp [concurrent_unordered_set.insert, setInsertData, h]
  · intro ops t
    rw [hcount]
    simp

/-- Witness for C7 at a concrete set state. -/
theorem C7_set_insert_idempotent_witness :
    ((5 : Nat) ∈ (⟨[5]⟩ : concurrent_unordered_set Nat).m_data) ∧
      (⟨[5]⟩ : concurrent_unordered_set Nat).insert 5 =
        (⟨[5]⟩ : concurrent_unordered_set Nat) :=
  ⟨by decide,
   (C7_set_insert_idempotent Nat).1 ⟨[5]⟩ 5 (by decide)⟩

/-- C8: on a single accumulator the exclusion guard serializes every pair of
operations: in the interleaving model of `n` threads each performing one
lock-guarded operation, no two distinct threads are ever simultaneously
inside their critical sections, and any step that changes the storage is
taken by a thread that holds the guard inside its critical section. -/
theorem C8_guard_serializes (K V T : Type) [DecidableEq K] [DecidableEq T] :
    (∀ (n : Nat) (ops : Fin n → MapOp K V) (e : List (K × V))
        (s : ThreadedAcc n (List (K × V))),
        TReach applyMapOp ops e s →
        ∀ i j : Fin n, s.phase i = .inCritical → s.phase j = .inCritical →
          i = j) ∧
    (∀ (n : Nat) (ops : Fin n → SetOp T) (e : List T)
        (s : ThreadedAcc n (List T)),
        TReach applySetOp ops e s →
        ∀ i j : Fin n, s.phase i = .inCritical → s.phase j = .inCritical →
          i = j) ∧
    (∀ (n : Nat) (ops : Fin n → MapOp K V)
        (s t : ThreadedAcc n (List (K × V))),
        TStep applyMapOp ops s t → t.m_data ≠ s.m_data →
        ∃ i, s.owner = some i ∧ s.phase i = .inCritical) ∧
    (∀ (n : Nat) (ops : Fin n → SetOp T) (s t : ThreadedAcc n (List T)),
        TStep applySetOp ops s t → t.m_data ≠ s.m_data →
        ∃ i, s.owner = some i ∧ s.phase i = .inCritical) := by
  refine ⟨?_, ?_, ?_, ?_⟩
  · intro n ops e s h i j hi hj
    exact treach_mutual_exclusion applyMapOp ops e s h i j hi hj
  · intro n ops e s h i j hi hj
    exact treach_mutual_exclusion applySetOp ops e s h i j hi hj
  · intro n ops s t hst hne
    cases hst with
    | lock j hown hph => exact absurd rfl hne
    | unlock j hown hph => exact ⟨j, hown, hph⟩
  · intro n ops s t hst hne
    cases hst with
    | lock j hown hph => exact absurd rfl hne
    | unlock j hown hph => exact ⟨j, hown, hph⟩

/-- Witness for C8 at a concrete reachable two-thread state with thread 0
inside its critical section. -/
theorem C8_guard_serializes_witness :
    TReach (applyMapOp (K := Nat) (V := Nat))
        (fun _ : Fin 2 => MapOp.emptyQuery) []
        ⟨some 0, Function.update (fun _ => LockPhase.beforeLock) 0
          LockPhase.inCritical, []⟩ ∧
      ((0 : Fin 2) = 0) := by
  have hre : TReach (applyMapOp (K := Nat) (V := Nat))
      (fun _ : Fin 2 => MapOp.emptyQuery) []
      ⟨some 0, Function.update (fun _ => LockPhase.beforeLock) 0
        LockPhase.inCritical, []⟩ :=
    TReach.step _ _ TReach.start (TStep.lock _ 0 rfl rfl)
  refine ⟨hre, ?_⟩
  exact (C8_guard_serializes Nat Nat Nat).1 2 _ _ _ hre 0 0
    (by simp [Function.update_apply]) (by simp [Function.update_apply])

/-- C9: `empty()` and `size()` are pure observers: in the heap model neither
changes anything, and `empty()` returns `true` exactly when `size()` returns
`0`. -/
theorem C9_observers_pure (K V T : Type) [DecidableEq K] [DecidableEq T] :
    (∀ m : concurrent_unordered_map K V, m.empty = true ↔ m.size = 0) ∧
    (∀ s : concurrent_unordered_set T, s.empty = true ↔ s.size = 0) ∧
    (∀ s : heap_state (List (K × V)),
        hStepMap s MapOp.emptyQuery = s ∧ hStepMap s MapOp.sizeQuery = s) ∧
    (∀ s : heap_state (List T),
        hStepSet s SetOp.emptyQuery = s ∧ hStepSet s SetOp.sizeQuery = s) := by
  refine ⟨?_, ?_, fun s => ⟨rfl, rfl⟩, fun s => ⟨rfl, rfl⟩⟩
  · intro m
    cases h : m.m_data <;>
      simp [concurrent_unordered_map.empty, concurrent_unordered_map.size, h]
  · intro s
    cases h : s.m_data <;>
      simp [concurrent_unordered_set.empty, concurrent_unordered_set.size, h]

/-- C10: a single `insert_or_assign` (map) or `insert` (set) increases
`size()` by exactly one when the key/value is absent and leaves it unchanged
when present; in particular the size never decreases under insertions. -/
theorem C10_size_delta (K V T : Type) [DecidableEq K] [DecidableEq T] :
    (∀ (m : concurrent_unordered_map K V) (k : K) (v : V),
        (m.insert_or_assign k v).size =
          if k ∈ mapKeys m.m_data then m.size else m.size + 1) ∧
    (∀ (m : concurrent_unordered_map K V) (k : K) (v : V),
        m.size ≤ (m.insert_or_assign k v).size) ∧
    (∀ (s : concurrent_unordered_set T) (t : T),
        (s.insert t).size =
          if t ∈ s.m_data then s.size else s.size + 1) ∧
    (∀ (s : concurrent_unordered_set T) (t : T),
        s.size ≤ (s.insert t).size) := by
  have hmap : ∀ (m : concurrent_unordered_map K V) (k : K) (v : V),
      (m.insert_or_assign k v).size =
        if k ∈ mapKeys m.m_data then m.size else m.size + 1 := by
    intro m k v
    exact ioaData_length m.m_data k v
  have hset : ∀ (s : concurrent_unordered_set T) (t : T),
      (s.insert t).size = if t ∈ s.m_data then s.size else s.size + 1 := by
    intro s t
    exact setInsertData_length s.m_data t
  refine ⟨hmap, ?_, hset, ?_⟩
  · intro m k v
    rw [hmap]
    by_cases h : k ∈ mapKeys m.m_data
    · rw [if_pos h]
    · rw [if_neg h]; exact Nat.le_succ _
  · intro s t
    rw [hset]
    by_cases h : t ∈ s.m_data
    · rw [if_pos h]
    · rw [if_neg h]; exact Nat.le_succ _

end cswinrt
